import Mathlib

/-!
Shallow embedding of the `book-web-server` thread pool (`src/lib.rs`).

The Rust code is the classic fixed-size worker pool: `ThreadPool::build`
validates the size, creates one mpsc channel, wraps the receiver in
`Arc<Mutex<..>>` and spawns `size` workers; `execute` boxes a job and sends
it on the producer handle; `Drop for ThreadPool` takes the sender (closing
the channel) and then joins every worker thread in order; each worker loops
`lock → recv → unlock → run job`, breaking out of the loop when `recv`
fails because the channel is closed and drained.

Jobs are opaque one-shot closures; here a job is identified by a natural
number (what matters for the claims is which job runs, not what it does).
Heap/OS resources that the Rust code allocates (the channel, thread
handles, the `Arc` clone of the receiver) are modelled as tokens so that
sharing and liveness are visible in the state.
-/

/-- A `Job` (`type Job = Box<dyn FnOnce() + Send + 'static>`) is opaque;
we identify each submitted job by a natural number. -/
abbrev Job := Nat

/-- `pub enum PoolCreationError { InvalidSize }` -/
inductive PoolCreationError where
  | InvalidSize
deriving DecidableEq, Repr

/-- `struct Worker { id: usize, thread: Option<JoinHandle<()>> }`.
The `receiver` field records which channel consumer handle the spawned
thread captured (`Arc::clone(&receiver)` in `ThreadPool::build`); in the
Rust code the handle is moved into the thread closure rather than stored,
but which handle each worker holds is part of the observable wiring. -/
structure Worker where
  id : Nat
  receiver : Nat
  thread : Option Unit
deriving DecidableEq, Repr

/-- `Worker::new(id, receiver)`: spawns the worker thread and stores the
live join handle. -/
def Worker.new (id : Nat) (receiver : Nat) : Worker :=
  { id := id, receiver := receiver, thread := some () }

/-- `pub struct ThreadPool { workers: Vec<Worker>, sender: Option<mpsc::Sender<Job>> }`.
The sender is tagged with the id of the channel it produces into. -/
structure ThreadPool where
  workers : List Worker
  sender : Option Nat
deriving DecidableEq, Repr

/-- Observable side effects of `ThreadPool::build`, in program order. -/
inductive BuildEffect where
  | channelCreated (ch : Nat)
  | threadSpawned (workerId : Nat)
deriving DecidableEq, Repr

/-- `ThreadPool::build(size)`. Mirrors the source: the `size <= 0` check
returns `Err(PoolCreationError::InvalidSize)` before the channel is
created or any worker spawned; otherwise one channel is created, the
receiver is shared, and `size` workers with ids `0..size` are spawned,
each cloning the same receiver handle. The second component is the trace
of allocation effects, in order. -/
def ThreadPool.build (size : Nat) :
    Except PoolCreationError ThreadPool × List BuildEffect :=
  if size ≤ 0 then
    (Except.error PoolCreationError.InvalidSize, [])
  else
    let ch := 0
    let workers := (List.range size).map (fun id => Worker.new id ch)
    (Except.ok { workers := workers, sender := some ch },
     BuildEffect.channelCreated ch ::
       (List.range size).map BuildEffect.threadSpawned)

/-- The mpsc channel (`mpsc::channel()`), as seen by `send`/`recv`:
the FIFO queue of pending jobs, whether the producer side has been
dropped (`closed`), and whether the consumer side still exists. -/
structure Channel where
  queue : List Job
  closed : Bool
  receiverAlive : Bool
deriving DecidableEq, Repr

/-- The two `unwrap` panics that `ThreadPool::execute` can hit:
`self.sender.as_ref().unwrap()` on `None`, and `.send(..).unwrap()` when
the receiving side has been dropped. -/
inductive ExecuteFailure where
  | senderUnwrapPanic
  | sendUnwrapPanic
deriving DecidableEq, Repr

/-- `ThreadPool::execute(&self, job)`: `self.sender.as_ref().unwrap().send(Box::new(job)).unwrap()`.
The pool is taken by shared reference, so it is returned unchanged on
success; the only effect is appending the boxed job to the channel queue. -/
def ThreadPool.execute (p : ThreadPool) (ch : Channel) (job : Job) :
    Except ExecuteFailure (ThreadPool × Channel) :=
  match p.sender with
  | none => Except.error ExecuteFailure.senderUnwrapPanic
  | some _ =>
      if ch.receiverAlive then
        Except.ok (p, { ch with queue := ch.queue ++ [job] })
      else
        Except.error ExecuteFailure.sendUnwrapPanic

/-- Observable events of `Drop for ThreadPool`, in program order. -/
inductive DropEvent where
  | senderDropped
  | logShutdown (id : Nat)
  | threadJoined (id : Nat)
deriving DecidableEq, Repr

/-- `impl Drop for ThreadPool`: `drop(self.sender.take())` first (emits
`senderDropped` only if the sender was still present — `take` on `None`
is a no-op), then for each worker in order: print the shutdown log, and
join the thread if its handle has not already been taken. -/
def ThreadPool.dropPool (p : ThreadPool) : ThreadPool × List DropEvent :=
  let closeEvents : List DropEvent :=
    match p.sender with
    | some _ => [DropEvent.senderDropped]
    | none => []
  let workerEvents : List DropEvent :=
    p.workers.flatMap (fun w =>
      DropEvent.logShutdown w.id ::
        (match w.thread with
         | some _ => [DropEvent.threadJoined w.id]
         | none => []))
  ({ workers := p.workers.map (fun w => { w with thread := none }),
     sender := none },
   closeEvents ++ workerEvents)

/-- C2: `build(0)` fails with `InvalidSize` and the effect trace is empty:
no channel created, no thread spawned, no partial pool observable. -/
theorem build_zero_invalid_size_no_threads :
    (ThreadPool.build 0).1 = Except.error PoolCreationError.InvalidSize ∧
    (ThreadPool.build 0).2 = [] := by
  constructor <;> rfl

/-- C3: for every `size ≥ 1`, `build(size)` succeeds, and the returned
pool has exactly `size` workers with ids `0, 1, ..., size-1` in order,
each holding a live thread handle, and all sharing the one consumer
handle of the channel whose producer handle the pool holds. -/
theorem build_pos_spawns_size_workers (size : Nat) (hsz : 1 ≤ size) :
    (∃ p, (ThreadPool.build size).1 = Except.ok p) ∧
    ∀ p, (ThreadPool.build size).1 = Except.ok p →
      p.workers.length = size ∧
      p.workers.map Worker.id = List.range size ∧
      (∀ w ∈ p.workers, w.thread.isSome = true) ∧
      (∃ c, p.sender = some c ∧ ∀ w ∈ p.workers, w.receiver = c) := by
  have hne : ¬ size ≤ 0 := by omega
  constructor
  · refine ⟨{ workers := (List.range size).map (fun id => Worker.new id 0),
              sender := some 0 }, ?_⟩
    simp [ThreadPool.build, hne]
  · intro p hp
    simp only [ThreadPool.build, hne, if_neg hne] at hp
    cases hp
    refine ⟨by simp, ?_, ?_, 0, rfl, ?_⟩
    · simp [Worker.new, Function.comp_def]
    · intro w hw
      rcases List.mem_map.mp hw with ⟨i, _, rfl⟩
      rfl
    · intro w hw
      rcases List.mem_map.mp hw with ⟨i, _, rfl⟩
      rfl

/-- C3 witness at `size = 3`. -/
theorem build_pos_spawns_size_workers_witness :
    1 ≤ 3 ∧
    ((∃ p, (ThreadPool.build 3).1 = Except.ok p) ∧
     ∀ p, (ThreadPool.build 3).1 = Except.ok p →
       p.workers.length = 3 ∧
       p.workers.map Worker.id = List.range 3 ∧
       (∀ w ∈ p.workers, w.thread.isSome = true) ∧
       (∃ c, p.sender = some c ∧ ∀ w ∈ p.workers, w.receiver = c)) :=
  ⟨by decide, build_pos_spawns_size_workers 3 (by decide)⟩

/-- C4: dropping a built pool first emits `senderDropped` (the producer
handle is relinquished, closing the queue), then logs and joins each
worker in construction order, id 0 first; after the drop the sender slot
is empty, and a second run of the teardown body emits neither a second
`senderDropped` nor any join: `Option::take` on `None` and on an
already-taken thread handle are no-ops. -/
theorem drop_closes_then_joins_in_order (size : Nat) (p : ThreadPool)
    (hsz : 1 ≤ size) (hp : (ThreadPool.build size).1 = Except.ok p) :
    (p.dropPool).2 =
      DropEvent.senderDropped ::
        (List.range size).flatMap
          (fun i => [DropEvent.logShutdown i, DropEvent.threadJoined i]) ∧
    (p.dropPool).1.sender = none ∧
    DropEvent.senderDropped ∉ ((p.dropPool).1.dropPool).2 ∧
    ∀ i, DropEvent.threadJoined i ∉ ((p.dropPool).1.dropPool).2 := by
  have hne : ¬ size ≤ 0 := by omega
  simp only [ThreadPool.build, if_neg hne] at hp
  cases hp
  refine ⟨?_, rfl, ?_, ?_⟩
  · simp [ThreadPool.dropPool, Worker.new, List.flatMap_map]
  · simp [ThreadPool.dropPool, Worker.new, List.flatMap_map]
  · intro i
    simp [ThreadPool.dropPool, Worker.new, List.flatMap_map]

/-- C4 witness at `size = 2`. -/
theorem drop_closes_then_joins_in_order_witness :
    (1 ≤ 2 ∧
       (ThreadPool.build 2).1 =
         Except.ok { workers := [Worker.new 0 0, Worker.new 1 0],
                     sender := some 0 }) ∧
    (({ workers := [Worker.new 0 0, Worker.new 1 0],
        sender := some 0 } : ThreadPool).dropPool).2 =
      DropEvent.senderDropped ::
        (List.range 2).flatMap
          (fun i => [DropEvent.logShutdown i, DropEvent.threadJoined i]) ∧
    (({ workers := [Worker.new 0 0, Worker.new 1 0],
        sender := some 0 } : ThreadPool).dropPool).1.sender = none ∧
    DropEvent.senderDropped ∉
      ((({ workers := [Worker.new 0 0, Worker.new 1 0],
           sender := some 0 } : ThreadPool).dropPool).1.dropPool).2 ∧
    ∀ i, DropEvent.threadJoined i ∉
      ((({ workers := [Worker.new 0 0, Worker.new 1 0],
           sender := some 0 } : ThreadPool).dropPool).1.dropPool).2 :=
  ⟨⟨by decide, by rfl⟩,
   drop_closes_then_joins_in_order 2
     { workers := [Worker.new 0 0, Worker.new 1 0], sender := some 0 }
     (by decide) (by rfl)⟩

/-- C6: as long as the consumer side of the channel is alive (which holds
whenever any worker thread is still running), `execute` fails — the
`unwrap` panics — exactly when the producer handle has already been
relinquished (`sender = none`, the queue is closed); on a live pool it
returns successfully after appending the job to the queue, with no
blocking modelled: the enqueue is the entire operation. -/
theorem execute_panics_iff_queue_closed (p : ThreadPool) (ch : Channel)
    (job : Job) (halive : ch.receiverAlive = true) :
    ((∃ e, ThreadPool.execute p ch job = Except.error e) ↔ p.sender = none) ∧
    (p.sender = none →
      ThreadPool.execute p ch job =
        Except.error ExecuteFailure.senderUnwrapPanic) ∧
    ∀ c, p.sender = some c →
      ThreadPool.execute p ch job =
        Except.ok (p, { ch with queue := ch.queue ++ [job] }) := by
  refine ⟨⟨?_, ?_⟩, ?_, ?_⟩
  · rintro ⟨e, he⟩
    cases hs : p.sender with
    | none => rfl
    | some c =>
        rw [ThreadPool.execute, hs] at he
        simp [halive] at he
  · intro hs
    exact ⟨ExecuteFailure.senderUnwrapPanic, by rw [ThreadPool.execute, hs]⟩
  · intro hs
    rw [ThreadPool.execute, hs]
  · intro c hs
    rw [ThreadPool.execute, hs]
    simp [halive]

/-- C6 witness: a live pool with one worker and an open channel. -/
theorem execute_panics_iff_queue_closed_witness :
    ({ queue := [], closed := false, receiverAlive := true } : Channel).receiverAlive = true ∧
    (((∃ e, ThreadPool.execute
          { workers := [Worker.new 0 0], sender := some 0 }
          { queue := [], closed := false, receiverAlive := true } 7 =
            Except.error e) ↔
        ({ workers := [Worker.new 0 0], sender := some 0 } : ThreadPool).sender = none) ∧
     (({ workers := [Worker.new 0 0], sender := some 0 } : ThreadPool).sender = none →
       ThreadPool.execute
         { workers := [Worker.new 0 0], sender := some 0 }
         { queue := [], closed := false, receiverAlive := true } 7 =
         Except.error ExecuteFailure.senderUnwrapPanic) ∧
     ∀ c, ({ workers := [Worker.new 0 0], sender := some 0 } : ThreadPool).sender = some c →
       ThreadPool.execute
         { workers := [Worker.new 0 0], sender := some 0 }
         { queue := [], closed := false, receiverAlive := true } 7 =
         Except.ok ({ workers := [Worker.new 0 0], sender := some 0 },
           { queue := [] ++ [7], closed := false, receiverAlive := true })) :=
  ⟨rfl,
   execute_panics_iff_queue_closed
     { workers := [Worker.new 0 0], sender := some 0 }
     { queue := [], closed := false, receiverAlive := true } 7 rfl⟩

/-- C10: `execute` takes the pool by shared reference: whenever it
succeeds, the returned pool is the argument pool unchanged — same worker
list (ids and thread handles) and same sender option — and the channel has
changed only by the boxed job appended to its queue. -/
theorem execute_frame (p p2 : ThreadPool) (ch ch2 : Channel) (job : Job)
    (h : ThreadPool.execute p ch job = Except.ok (p2, ch2)) :
    p2 = p ∧ p2.workers = p.workers ∧ p2.sender = p.sender ∧
    ch2.queue = ch.queue ++ [job] ∧ ch2.receiverAlive = ch.receiverAlive ∧
    ch2.closed = ch.closed := by
  rw [ThreadPool.execute] at h
  cases hs : p.sender with
  | none => rw [hs] at h; cases h
  | some c =>
      rw [hs] at h
      by_cases halive : ch.receiverAlive = true
      · simp only [halive, if_true, Except.ok.injEq, Prod.mk.injEq] at h
        obtain ⟨hp, hch⟩ := h
        subst hp
        subst hch
        simp only [and_true, true_and, and_self]
        exact ⟨hs, halive.symm⟩
      · simp only [Bool.not_eq_true] at halive
        simp [halive] at h

/-- C10 witness. -/
theorem execute_frame_witness :
    ThreadPool.execute
      { workers := [Worker.new 0 0], sender := some 0 }
      { queue := [3], closed := false, receiverAlive := true } 9 =
      Except.ok ({ workers := [Worker.new 0 0], sender := some 0 },
        { queue := [3, 9], closed := false, receiverAlive := true }) ∧
    (({ workers := [Worker.new 0 0], sender := some 0 } : ThreadPool) =
       { workers := [Worker.new 0 0], sender := some 0 } ∧
     ({ workers := [Worker.new 0 0], sender := some 0 } : ThreadPool).workers =
       ({ workers := [Worker.new 0 0], sender := some 0 } : ThreadPool).workers ∧
     ({ workers := [Worker.new 0 0], sender := some 0 } : ThreadPool).sender =
       ({ workers := [Worker.new 0 0], sender := some 0 } : ThreadPool).sender ∧
     ({ queue := [3, 9], closed := false, receiverAlive := true } : Channel).queue =
       ({ queue := [3], closed := false, receiverAlive := true } : Channel).queue ++ [9] ∧
     ({ queue := [3, 9], closed := false, receiverAlive := true } : Channel).receiverAlive =
       ({ queue := [3], closed := false, receiverAlive := true } : Channel).receiverAlive ∧
     ({ queue := [3, 9], closed := false, receiverAlive := true } : Channel).closed =
       ({ queue := [3], closed := false, receiverAlive := true } : Channel).closed) :=
  ⟨by rfl,
   execute_frame
     { workers := [Worker.new 0 0], sender := some 0 }
     { workers := [Worker.new 0 0], sender := some 0 }
     { queue := [3], closed := false, receiverAlive := true }
     { queue := [3, 9], closed := false, receiverAlive := true } 9 (by rfl)⟩

/-- Outcome of a `recv()` call in the worker loop: `Ok(job)` or the
`RecvError` returned once the channel is closed and drained. -/
inductive RecvResult where
  | ok (j : Job)
  | err
deriving DecidableEq, Repr

/-- `Receiver::recv()` as observed by a worker holding the lock: with a
queued job it returns that job (FIFO); with an empty queue it returns the
error if the sender has been dropped, and otherwise blocks (`none`). -/
def Channel.recvStep (ch : Channel) : Option (RecvResult × Channel) :=
  match ch.queue with
  | j :: rest => some (RecvResult.ok j, { ch with queue := rest })
  | [] => if ch.closed then some (RecvResult.err, ch) else none

/-- The phase a worker thread is in, as the spec's loop state machine:
listening at the top of the loop, executing a received job, terminated
after `break`, or panicked (the `expect` on a poisoned lock). -/
inductive WPhase where
  | listening
  | executing (job : Job)
  | terminated
  | panicked
deriving DecidableEq, Repr

/-- One transition of the worker loop of `Worker::new` (`src/lib.rs`),
given whether the receiver mutex is poisoned and what `recv` returned:
at the top of the loop, `lock().expect(..)` panics on a poisoned mutex;
otherwise `match message` enters the job on `Ok` and breaks on `Err`;
a running job completes and the worker loops back to listening; a
terminated (or panicked) thread makes no further transitions. -/
def workerStep (poisoned : Bool) (res : RecvResult) : WPhase → WPhase
  | WPhase.listening =>
      if poisoned then WPhase.panicked
      else
        match res with
        | RecvResult.ok j => WPhase.executing j
        | RecvResult.err => WPhase.terminated
  | WPhase.executing _ => WPhase.listening
  | WPhase.terminated => WPhase.terminated
  | WPhase.panicked => WPhase.panicked

/-- C5: the worker loop as the three-state machine of the spec (with an
unpoisoned lock): Listening→Executing exactly on a successful receive,
Executing→Listening on job completion, Listening→Terminated exactly on
receive failure, Terminated absorbing; and while the channel is still
open, `recv` never reports failure, so a listening worker never exits
its loop. -/
theorem worker_loop_state_machine (ch : Channel) (res : RecvResult)
    (ch2 : Channel) (hopen : ch.closed = false)
    (hrecv : ch.recvStep = some (res, ch2)) :
    (∀ j, workerStep false (RecvResult.ok j) WPhase.listening =
       WPhase.executing j) ∧
    (∀ r j, workerStep false r (WPhase.executing j) = WPhase.listening) ∧
    workerStep false RecvResult.err WPhase.listening = WPhase.terminated ∧
    (∀ r, workerStep false r WPhase.terminated = WPhase.terminated) ∧
    (∀ r, (∃ j, workerStep false r WPhase.listening = WPhase.executing j) ↔
       ∃ j, r = RecvResult.ok j) ∧
    workerStep false res WPhase.listening ≠ WPhase.terminated := by
  refine ⟨fun j => rfl, fun r j => rfl, rfl, fun r => rfl, ?_, ?_⟩
  · intro r
    cases r with
    | ok j => exact ⟨fun _ => ⟨j, rfl⟩, fun _ => ⟨j, rfl⟩⟩
    | err =>
        constructor
        · rintro ⟨j, hj⟩
          exact absurd hj (by simp [workerStep])
        · rintro ⟨j, hj⟩
          cases hj
  · cases hq : ch.queue with
    | cons j rest =>
        rw [Channel.recvStep, hq] at hrecv
        simp only [Option.some.injEq, Prod.mk.injEq] at hrecv
        rw [← hrecv.1]
        simp [workerStep]
    | nil =>
        rw [Channel.recvStep, hq, hopen] at hrecv
        simp at hrecv

/-- C5 witness: an open channel holding one job. -/
theorem worker_loop_state_machine_witness :
    ({ queue := [4], closed := false, receiverAlive := true } : Channel).closed = false ∧
    ({ queue := [4], closed := false, receiverAlive := true } : Channel).recvStep =
      some (RecvResult.ok 4,
        { queue := [], closed := false, receiverAlive := true }) ∧
    ((∀ j, workerStep false (RecvResult.ok j) WPhase.listening =
        WPhase.executing j) ∧
     (∀ r j, workerStep false r (WPhase.executing j) = WPhase.listening) ∧
     workerStep false RecvResult.err WPhase.listening = WPhase.terminated ∧
     (∀ r, workerStep false r WPhase.terminated = WPhase.terminated) ∧
     (∀ r, (∃ j, workerStep false r WPhase.listening = WPhase.executing j) ↔
        ∃ j, r = RecvResult.ok j) ∧
     workerStep false (RecvResult.ok 4) WPhase.listening ≠ WPhase.terminated) :=
  ⟨rfl, rfl,
   worker_loop_state_machine
     { queue := [4], closed := false, receiverAlive := true }
     (RecvResult.ok 4)
     { queue := [], closed := false, receiverAlive := true } rfl rfl⟩

/-- C7: with a poisoned receiver mutex, `lock().expect(..)` makes the
worker thread panic: whatever the channel would have delivered, the
listening worker moves to the panicked phase — which is none of
listening, executing, or terminated, and from which no further loop
iteration happens — rather than skipping the job or continuing. -/
theorem poisoned_lock_panics_worker (res : RecvResult) :
    workerStep true res WPhase.listening = WPhase.panicked ∧
    WPhase.panicked ≠ WPhase.listening ∧
    (∀ j, WPhase.panicked ≠ WPhase.executing j) ∧
    WPhase.panicked ≠ WPhase.terminated ∧
    (∀ r, workerStep true r WPhase.panicked = WPhase.panicked) := by
  refine ⟨rfl, by simp, fun j => by simp, by simp, fun r => rfl⟩

/-- Micro-events of one iteration of the worker loop, in program order. -/
inductive LoopEvent where
  | lockAcquire
  | recvAttempt
  | lockRelease
  | logGotJob (id : Nat)
  | runJob (j : Job)
  | logDisconnected (id : Nat)
  | breakLoop
deriving DecidableEq, Repr

/-- One iteration of the loop in `Worker::new`, as its event trace. The
`let message = receiver.lock().expect(..).recv();` statement drops the
mutex guard when the `let` ends, so the release comes right after the
receive attempt; only then does the `match` log and run the job (on `Ok`)
or log and break (on `Err`). -/
def workerIterationTrace (id : Nat) (res : RecvResult) : List LoopEvent :=
  [LoopEvent.lockAcquire, LoopEvent.recvAttempt, LoopEvent.lockRelease] ++
    match res with
    | RecvResult.ok j => [LoopEvent.logGotJob id, LoopEvent.runJob j]
    | RecvResult.err => [LoopEvent.logDisconnected id, LoopEvent.breakLoop]

/-- Whether the receiver mutex is held just before position `i` of an
event trace, starting unlocked. -/
def lockHeldAt (tr : List LoopEvent) (i : Nat) : Bool :=
  (tr.take i).foldl
    (fun held e =>
      match e with
      | LoopEvent.lockAcquire => true
      | LoopEvent.lockRelease => false
      | _ => held)
    false

/-- C8: in every worker loop iteration, the receive lock is held at the
receive attempt and is no longer held when the received job runs: the
iteration is lock → receive → unlock → execute, never
lock → receive → execute → unlock. -/
theorem lock_released_before_job_runs (id : Nat) (res : RecvResult)
    (i : Nat) (j : Job)
    (hrun : (workerIterationTrace id res)[i]? = some (LoopEvent.runJob j)) :
    lockHeldAt (workerIterationTrace id res) i = false ∧
    ∀ k, (workerIterationTrace id res)[k]? = some LoopEvent.recvAttempt →
      lockHeldAt (workerIterationTrace id res) k = true := by
  constructor
  · cases res with
    | ok j2 =>
        match i with
        | 0 | 1 | 2 | 3 => simp [workerIterationTrace] at hrun
        | 4 => rfl
        | n + 5 => simp [workerIterationTrace] at hrun
    | err =>
        match i with
        | 0 | 1 | 2 | 3 | 4 => simp [workerIterationTrace] at hrun
        | n + 5 => simp [workerIterationTrace] at hrun
  · intro k hk
    cases res with
    | ok j2 =>
        match k with
        | 0 | 2 | 3 | 4 => simp [workerIterationTrace] at hk
        | 1 => rfl
        | n + 5 => simp [workerIterationTrace] at hk
    | err =>
        match k with
        | 0 | 2 | 3 | 4 => simp [workerIterationTrace] at hk
        | 1 => rfl
        | n + 5 => simp [workerIterationTrace] at hk

/-- C8 witness: the successful-receive iteration of worker 0 on job 7. -/
theorem lock_released_before_job_runs_witness :
    (workerIterationTrace 0 (RecvResult.ok 7))[4]? =
      some (LoopEvent.runJob 7) ∧
    (lockHeldAt (workerIterationTrace 0 (RecvResult.ok 7)) 4 = false ∧
     ∀ k, (workerIterationTrace 0 (RecvResult.ok 7))[k]? =
         some LoopEvent.recvAttempt →
       lockHeldAt (workerIterationTrace 0 (RecvResult.ok 7)) k = true) :=
  ⟨rfl, lock_released_before_job_runs 0 (RecvResult.ok 7) 4 7 rfl⟩

/-- Global state of the running pool, for the interleaving semantics:
jobs submitted so far (in submission order, identified by submission
index), the channel queue, each worker thread's phase, the jobs whose
execution has completed (in completion order), and whether the producer
handle has been dropped. -/
structure SysState where
  submitted : List Job
  queue : List Job
  workers : List WPhase
  executed : List Job
  closed : Bool
deriving DecidableEq, Repr

/-- Interleaved small-step semantics of the pool: a submitter calls
`execute` with a fresh job (only possible while the sender exists; on a
closed queue `execute` panics instead of enqueuing);
a listening worker's `recv` returns the head job, which only one worker
can take since the receiver is behind the mutex; a worker finishes its
job and loops; the pool's `drop` takes the sender, closing the queue; and
a listening worker's `recv` returns an error — only once the queue is
both closed and drained — so the worker breaks out of its loop. -/
inductive SysStep : SysState → SysState → Prop where
  | submit (s : SysState) (h : s.closed = false) :
      SysStep s { s with
        submitted := s.submitted ++ [s.submitted.length],
        queue := s.queue ++ [s.submitted.length] }
  | recv (s : SysState) (i : Nat) (j : Job) (rest : List Job)
      (hw : s.workers[i]? = some WPhase.listening)
      (hq : s.queue = j :: rest) :
      SysStep s { s with
        workers := s.workers.set i (WPhase.executing j), queue := rest }
  | complete (s : SysState) (i : Nat) (j : Job)
      (hw : s.workers[i]? = some (WPhase.executing j)) :
      SysStep s { s with
        workers := s.workers.set i WPhase.listening,
        executed := s.executed ++ [j] }
  | close (s : SysState) (h : s.closed = false) :
      SysStep s { s with closed := true }
  | terminate (s : SysState) (i : Nat)
      (hw : s.workers[i]? = some WPhase.listening)
      (hq : s.queue = []) (hc : s.closed = true) :
      SysStep s { s with workers := s.workers.set i WPhase.terminated }

/-- The pool as returned by `build(size)`: `size` listening workers,
empty queue, nothing submitted, sender present. -/
def initState (size : Nat) : SysState :=
  { submitted := [], queue := [],
    workers := List.replicate size WPhase.listening,
    executed := [], closed := false }

/-- States the pool can be in after any interleaving of submissions,
receives, completions, and teardown steps. -/
def SysReachable (size : Nat) (s : SysState) : Prop :=
  Relation.ReflTransGen SysStep (initState size) s

/-- Replacing the element at a valid index changes every count by the
swap of the old and new elements. -/
theorem count_set_step {α : Type} [DecidableEq α] (l : List α) (i : Nat)
    (a b x : α) (h : l[i]? = some b) :
    (l.set i a).count x + (if b = x then 1 else 0) =
      l.count x + (if a = x then 1 else 0) := by
  induction l generalizing i with
  | nil => simp at h
  | cons c t ih =>
      cases i with
      | zero =>
          simp only [List.getElem?_cons_zero, Option.some.injEq] at h
          subst h
          rw [List.set_cons_zero, List.count_cons, List.count_cons]
          by_cases hxa : x = a <;> by_cases hxc : x = c <;>
            simp_all <;> omega
      | succ n =>
          have h2 : t[n]? = some b := by simpa using h
          have ih2 := ih n h2
          rw [List.set_cons_succ, List.count_cons, List.count_cons]
          omega

/-- A valid index survives `set`, and the written value is a member. -/
theorem mem_set_self {α : Type} (l : List α) (i : Nat) (a : α)
    (h : i < l.length) : a ∈ l.set i a := by
  induction l generalizing i with
  | nil => simp at h
  | cons c t ih =>
      cases i with
      | zero => exact List.mem_cons_self a t
      | succ n =>
          have h2 : n < t.length := by simpa using h
          exact List.mem_cons_of_mem c (ih n h2)

/-- `getElem?` returning a value bounds the index. -/
theorem lt_length_of_getElem? {α : Type} {l : List α} {i : Nat} {b : α}
    (h : l[i]? = some b) : i < l.length := by
  by_contra hlt
  push_neg at hlt
  rw [List.getElem?_eq_none hlt] at h
  cases h

/-- Inductive invariant of the pool semantics: submitted jobs are exactly
the submission indices `0..n` (hence pairwise distinct); every job is
accounted for exactly once across queue, in-flight workers, and completed
executions; a terminated worker means the queue was closed; once every
worker has terminated the queue has been drained; and the worker count
never changes. -/
def SysInv (size : Nat) (s : SysState) : Prop :=
  s.submitted = List.range s.submitted.length ∧
  (∀ j : Job, s.queue.count j + s.workers.count (WPhase.executing j) +
      s.executed.count j = s.submitted.count j) ∧
  (∀ w ∈ s.workers, w = WPhase.terminated → s.closed = true) ∧
  ((∀ w ∈ s.workers, w = WPhase.terminated) → s.queue = []) ∧
  s.workers.length = size

/-- A listening worker holds no in-flight job. -/
theorem if_listening_executing (x : Job) :
    (if WPhase.listening = WPhase.executing x then 1 else 0) = 0 :=
  if_neg (fun hh => WPhase.noConfusion hh)

/-- A terminated worker holds no in-flight job. -/
theorem if_terminated_executing (x : Job) :
    (if WPhase.terminated = WPhase.executing x then 1 else 0) = 0 :=
  if_neg (fun hh => WPhase.noConfusion hh)

/-- Distinct jobs give distinct executing phases. -/
theorem if_executing_executing_ne (j x : Job) (h : ¬ j = x) :
    (if WPhase.executing j = WPhase.executing x then 1 else 0) = 0 :=
  if_neg (fun hh => h (WPhase.executing.inj hh))

theorem sysInv_init (size : Nat) : SysInv size (initState size) := by
  refine ⟨rfl, ?_, ?_, fun _ => rfl, by simp [initState]⟩
  · intro j
    have hz : (List.replicate size WPhase.listening).count
        (WPhase.executing j) = 0 := by
      rw [List.count_eq_zero]
      intro hmem
      exact WPhase.noConfusion (List.eq_of_mem_replicate hmem)
    show List.count j [] +
        (List.replicate size WPhase.listening).count (WPhase.executing j) +
        List.count j [] = List.count j []
    rw [hz, List.count_nil]
  · intro w hw hterm
    have := List.eq_of_mem_replicate hw
    subst this
    cases hterm

theorem sysInv_step (size : Nat) (hsz : 1 ≤ size) (s s2 : SysState)
    (hinv : SysInv size s) (hstep : SysStep s s2) : SysInv size s2 := by
  obtain ⟨hrange, hcount, htc, haq, hlen⟩ := hinv
  cases hstep with
  | submit h =>
      refine ⟨?_, ?_, ?_, ?_, hlen⟩
      · show s.submitted ++ [s.submitted.length] =
          List.range (s.submitted ++ [s.submitted.length]).length
        rw [List.length_append, List.length_singleton, List.range_succ,
          ← hrange]
      · intro j
        show (s.queue ++ [s.submitted.length]).count j +
            s.workers.count (WPhase.executing j) + s.executed.count j =
          (s.submitted ++ [s.submitted.length]).count j
        rw [List.count_append, List.count_append]
        have := hcount j
        omega
      · intro w hw hterm
        exact htc w hw hterm
      · intro hall
        exfalso
        have hne : s.workers ≠ [] := by
          intro hnil
          rw [hnil] at hlen
          simp at hlen
          omega
        obtain ⟨w, hw⟩ := List.exists_mem_of_ne_nil s.workers hne
        have hcl := htc w hw (hall w hw)
        rw [h] at hcl
        exact absurd hcl (by simp)
  | recv i j rest hw hq =>
      refine ⟨hrange, ?_, ?_, ?_, by simpa using hlen⟩
      · intro x
        have hcs := count_set_step s.workers i (WPhase.executing j)
          WPhase.listening (WPhase.executing x) hw
        have hcx := hcount x
        rw [hq] at hcx
        show rest.count x +
            (s.workers.set i (WPhase.executing j)).count (WPhase.executing x) +
            s.executed.count x = s.submitted.count x
        rw [if_listening_executing x] at hcs
        by_cases hjx : j = x
        · subst hjx
          rw [List.count_cons_self] at hcx
          rw [if_pos rfl] at hcs
          omega
        · rw [List.count_cons_of_ne (fun hh => hjx hh.symm)] at hcx
          rw [if_executing_executing_ne j x hjx] at hcs
          omega
      · intro w hw2 hterm
        rcases List.mem_or_eq_of_mem_set hw2 with hmem | heq
        · exact htc w hmem hterm
        · rw [heq] at hterm
          cases hterm
      · intro hall
        exfalso
        have hi := lt_length_of_getElem? hw
        have hmem := mem_set_self s.workers i (WPhase.executing j) hi
        have := hall _ hmem
        cases this
  | complete i j hw =>
      refine ⟨hrange, ?_, ?_, ?_, by simpa using hlen⟩
      · intro x
        have hcs := count_set_step s.workers i WPhase.listening
          (WPhase.executing j) (WPhase.executing x) hw
        have hcx := hcount x
        show s.queue.count x +
            (s.workers.set i WPhase.listening).count (WPhase.executing x) +
            (s.executed ++ [j]).count x = s.submitted.count x
        rw [List.count_append]
        rw [if_listening_executing x] at hcs
        by_cases hjx : j = x
        · subst hjx
          rw [if_pos rfl] at hcs
          have hone : List.count j [j] = 1 := by simp
          rw [hone]
          omega
        · rw [if_executing_executing_ne j x hjx] at hcs
          have hzero : List.count x [j] = 0 := by
            rw [List.count_cons_of_ne (fun hh => hjx hh.symm), List.count_nil]
          rw [hzero]
          omega
      · intro w hw2 hterm
        rcases List.mem_or_eq_of_mem_set hw2 with hmem | heq
        · exact htc w hmem hterm
        · rw [heq] at hterm
          cases hterm
      · intro hall
        exfalso
        have hi := lt_length_of_getElem? hw
        have hmem := mem_set_self s.workers i WPhase.listening hi
        have := hall _ hmem
        cases this
  | close h =>
      exact ⟨hrange, hcount, fun w hw hterm => rfl, haq, hlen⟩
  | terminate i hw hq hc =>
      refine ⟨hrange, ?_, fun w hw2 hterm => hc, fun _ => hq,
        by simpa using hlen⟩
      · intro x
        have hcs := count_set_step s.workers i WPhase.terminated
          WPhase.listening (WPhase.executing x) hw
        have hcx := hcount x
        show s.queue.count x +
            (s.workers.set i WPhase.terminated).count (WPhase.executing x) +
            s.executed.count x = s.submitted.count x
        rw [if_listening_executing x, if_terminated_executing x] at hcs
        omega

theorem sysInv_reachable (size : Nat) (hsz : 1 ≤ size) (s : SysState)
    (hr : SysReachable size s) : SysInv size s := by
  induction hr with
  | refl => exact sysInv_init size
  | tail h1 h2 ih => exact sysInv_step size hsz _ _ ih h2

/-- C1: in any run of the pool (any interleaving of `execute` calls,
worker receives, job completions, and teardown) that ends with the pool
torn down — every worker has observed the closed queue and terminated,
with no job panicking — every submitted job has been executed exactly
once: no job twice (hence not by two workers, a received job leaves the
queue under the mutex and sits in exactly one worker), and no job zero
times. -/
theorem jobs_execute_exactly_once (size : Nat) (s : SysState)
    (hsz : 1 ≤ size) (hr : SysReachable size s)
    (hdone : ∀ w ∈ s.workers, w = WPhase.terminated) :
    (∀ j ∈ s.submitted, s.executed.count j = 1) ∧
    (∀ j : Job, j ∉ s.submitted → s.executed.count j = 0) := by
  obtain ⟨hrange, hcount, htc, haq, hlen⟩ := sysInv_reachable size hsz s hr
  have hqnil := haq hdone
  have hexec : ∀ j : Job, s.executed.count j = s.submitted.count j := by
    intro j
    have hc := hcount j
    rw [hqnil] at hc
    have hwz : s.workers.count (WPhase.executing j) = 0 := by
      rw [List.count_eq_zero]
      intro hmem
      exact WPhase.noConfusion (hdone _ hmem)
    rw [hwz, List.count_nil] at hc
    omega
  constructor
  · intro j hj
    rw [hexec j]
    have hnodup : s.submitted.Nodup := by
      rw [hrange]
      exact List.nodup_range s.submitted.length
    exact List.count_eq_one_of_mem hnodup hj
  · intro j hj
    rw [hexec j]
    exact List.count_eq_zero.mpr hj

/-- C9: once teardown has completed — `drop` has closed the queue and
joined every worker, so all workers have terminated — the queue has been
fully drained and every job that was ever enqueued, including jobs that
were still queued when teardown began, has been executed to completion. -/
theorem teardown_drains_all_jobs (size : Nat) (s : SysState)
    (hsz : 1 ≤ size) (hr : SysReachable size s)
    (hdone : ∀ w ∈ s.workers, w = WPhase.terminated) :
    s.queue = [] ∧ ∀ j ∈ s.submitted, j ∈ s.executed := by
  obtain ⟨hrange, hcount, htc, haq, hlen⟩ := sysInv_reachable size hsz s hr
  have hqnil := haq hdone
  refine ⟨hqnil, ?_⟩
  intro j hj
  have hc := hcount j
  rw [hqnil] at hc
  have hwz : s.workers.count (WPhase.executing j) = 0 := by
    rw [List.count_eq_zero]
    intro hmem
    exact WPhase.noConfusion (hdone _ hmem)
  rw [hwz, List.count_nil] at hc
  have hpos : 0 < s.submitted.count j := List.count_pos_iff.mpr hj
  have : 0 < s.executed.count j := by omega
  exact List.count_pos_iff.mp this

/-- A complete run with one worker and one job: submit job 0, the worker
receives it, runs it to completion, the pool closes the queue, the worker
observes the closed drained queue and terminates. -/
def finalState1 : SysState :=
  { submitted := [0], queue := [], workers := [WPhase.terminated],
    executed := [0], closed := true }

theorem reach_finalState1 : SysReachable 1 finalState1 := by
  refine Relation.ReflTransGen.head (SysStep.submit (initState 1) rfl) ?_
  refine Relation.ReflTransGen.head (SysStep.recv _ 0 0 [] rfl rfl) ?_
  refine Relation.ReflTransGen.head (SysStep.complete _ 0 0 rfl) ?_
  refine Relation.ReflTransGen.head (SysStep.close _ rfl) ?_
  refine Relation.ReflTransGen.head (SysStep.terminate _ 0 rfl rfl rfl) ?_
  exact Relation.ReflTransGen.refl

/-- C1 witness: the one-worker one-job run. -/
theorem jobs_execute_exactly_once_witness :
    (1 ≤ 1 ∧ SysReachable 1 finalState1 ∧
      ∀ w ∈ finalState1.workers, w = WPhase.terminated) ∧
    ((∀ j ∈ finalState1.submitted, finalState1.executed.count j = 1) ∧
     (∀ j : Job, j ∉ finalState1.submitted →
       finalState1.executed.count j = 0)) :=
  ⟨⟨by decide, reach_finalState1, by decide⟩,
   jobs_execute_exactly_once 1 finalState1 (by decide) reach_finalState1
     (by decide)⟩

/-- C9 witness: the same run, seen at teardown completion. -/
theorem teardown_drains_all_jobs_witness :
    (1 ≤ 1 ∧ SysReachable 1 finalState1 ∧
      ∀ w ∈ finalState1.workers, w = WPhase.terminated) ∧
    (finalState1.queue = [] ∧
     ∀ j ∈ finalState1.submitted, j ∈ finalState1.executed) :=
  ⟨⟨by decide, reach_finalState1, by decide⟩,
   teardown_drains_all_jobs 1 finalState1 (by decide) reach_finalState1
     (by decide)⟩
